import Mathlib

/-!
Verification development for the PB12 boot-ROM logo encoder (pb12.c).

The program reads at most 16384 bytes, trims trailing zero bytes, and
encodes the remaining sequence as a bitstream of 2-bit repeat codes,
4-bit predicted-transform codes and 2-bit literal codes, flushing one
control byte (followed by the queued literal bytes) whenever at least
8 control bits have accumulated, and finally appends the reserved
terminator byte 0x01.

The definitions below are a shallow embedding of pb12.c:
pure functions over Nat and List Nat, with the two assert statements of
the C source modelled as an explicit failure result and the unbounded
while loop modelled with an explicit fuel parameter whose adequacy is
proved separately.
-/

/-- The four predicted options computed from the previous byte, exactly as
in the C function opts: the argument is a uint8_t, the results are stored
into a 4-entry array in this order. -/
def opts (byte : Nat) : List Nat :=
  [ byte ||| ((byte <<< 1) &&& 0xff),
    byte &&& (byte <<< 1),
    byte ||| ((byte >>> 1) &&& 0xff),
    byte &&& (byte >>> 1) ]

/-- First index whose entry equals byte, as the C for loop over the options
array: scan left to right, stop at the first hit, none when no entry hits. -/
def firstMatch (byte : Nat) : List Nat → Option Nat
  | [] => none
  | o :: rest =>
    if o = byte then some 0 else (firstMatch byte rest).map (fun j => j + 1)

/-- Encoder state of the main loop of pb12.c: the control-bit count bits,
the control-bit register control, the queued literal bytes literals, and
the two predictor slots prev[0] and prev[1]. The predictor slots are
unsigned C integers initialised to -1, hence Nat here with the value
4294967295 standing for the initial sentinel. -/
structure EncSt where
  bits : Nat
  control : Nat
  literals : List Nat
  prev0 : Nat
  prev1 : Nat
deriving DecidableEq

/-- Initial encoder state: no bits, empty control register, empty literal
queue, both predictor slots holding the unsigned -1 sentinel. -/
def initSt : EncSt := ⟨0, 0, [], 4294967295, 4294967295⟩

/-- One classification step of the main loop (lines 86 to 125 of pb12.c):
repeat codes when the byte equals a predictor slot, otherwise a predicted
transform code when the byte equals one of the four options computed from
prev[1] truncated to uint8_t, otherwise a literal; finally the predictor
slots shift. Fields are bits, control, literals, prev0, prev1. -/
def processByte (byte : Nat) (s : EncSt) : EncSt :=
  if byte = s.prev0 ∨ byte = s.prev1 then
    ⟨s.bits + 2,
     ((s.control <<< 1 ||| 1) <<< 1) ||| (if byte = s.prev1 then 1 else 0),
     s.literals, s.prev1, byte⟩
  else
    match firstMatch byte (opts (s.prev1 % 256)) with
    | some i =>
      ⟨s.bits + 4, (((s.control <<< 2) ||| 1) <<< 2) ||| i,
       s.literals, s.prev1, byte⟩
    | none =>
      ⟨s.bits + 2, s.control <<< 2, s.literals ++ [byte], s.prev1, byte⟩

/-- Flush check of lines 126 to 135 of pb12.c: when at least 8 control bits
are pending, the top 8 of them are extracted as the uint8_t control byte
outctl, which is written followed by the queued literals; the C source
asserts outctl is different from 1, modelled here as the none result. -/
def flush (s : EncSt) : Option (List Nat × EncSt) :=
  if 8 ≤ s.bits then
    if (s.control >>> (s.bits - 8)) % 256 = 1 then none
    else some ((s.control >>> (s.bits - 8)) % 256 :: s.literals,
      ⟨s.bits - 8, s.control &&& ((1 <<< (s.bits - 8)) - 1), [],
       s.prev0, s.prev1⟩)
  else some ([], s)

/-- Outcome of an encoding pass: the produced byte stream, or an abort of
the control-byte assert, or exhaustion of the termination fuel. -/
inductive Result where
  | ok (out : List Nat)
  | assertFail
  | outOfFuel
deriving DecidableEq

/-- The while true loop of pb12.c over an explicit fuel: with input bytes
remaining the next byte is processed and flushed; with the input exhausted
the loop stops when no bits are pending and otherwise processes the
implicit byte 0; the terminator byte 1 is appended on normal exit. -/
def encodeLoop : Nat → List Nat → EncSt → List Nat → Result
  | 0, _, _, _ => Result.outOfFuel
  | fuel + 1, input, s, acc =>
    match input with
    | [] =>
      if s.bits = 0 then Result.ok (acc ++ [1])
      else
        match flush (processByte 0 s) with
        | none => Result.assertFail
        | some (out, s2) => encodeLoop fuel [] s2 (acc ++ out)
    | b :: rest =>
      match flush (processByte b s) with
      | none => Result.assertFail
      | some (out, s2) => encodeLoop fuel rest s2 (acc ++ out)

/-- Trailing-zero trimmer of lines 62 to 65 of pb12.c: while the sequence
is nonempty and ends in a zero byte, drop that last byte. Formulated by
structural recursion: the result is empty exactly when every byte is zero,
and otherwise ends at the last nonzero byte. -/
def trimZeros : List Nat → List Nat
  | [] => []
  | b :: rest =>
    match trimZeros rest with
    | [] => if b = 0 then [] else [b]
    | r => b :: r

/-- The encoding pass on an already read buffer: the size assert of line 58
of pb12.c, then trimming, then the main loop. The fuel is the trimmed
length plus 8, proved sufficient below. -/
def pb12Encode (input : List Nat) : Result :=
  if input.length > 16384 then Result.assertFail
  else
    encodeLoop ((trimZeros input).length + 8) (trimZeros input) initSt []

/-- The whole program on a file of arbitrary length: fread on the 0x4000
byte buffer returns at most 16384 bytes, so the encoder runs on the first
16384 bytes of the file. -/
def pb12Program (file : List Nat) : Result :=
  pb12Encode (file.take 16384)

/-- Invariant that holds at the head of every loop iteration: at most three
queued literals at two control bits each, never more pending bits than six,
and an even bit count, since every event adds two or four bits and every
flush removes eight. -/
def LoopInv (s : EncSt) : Prop :=
  2 * s.literals.length ≤ s.bits ∧ s.bits ≤ 6 ∧ s.bits % 2 = 0

instance (s : EncSt) : Decidable (LoopInv s) := by
  unfold LoopInv; infer_instance

/-- Appending k fresh low bits b to a register a is multiplication by 2 to
the k plus b. -/
lemma shiftLeft_lor_eq (a b k : Nat) (h : b < 2 ^ k) :
    (a <<< k) ||| b = a * 2 ^ k + b := by
  rw [Nat.shiftLeft_eq, Nat.mul_comm a (2 ^ k), ← Nat.mul_add_lt_is_or h a]

lemma shiftLeft_one_lor_one (c : Nat) : (c <<< 1) ||| 1 = 2 * c + 1 := by
  have := shiftLeft_lor_eq c 1 1 (by norm_num)
  omega

lemma shiftLeft_two_lor (c i : Nat) (h : i < 4) :
    (c <<< 2) ||| i = 4 * c + i := by
  have := shiftLeft_lor_eq c i 2 (by omega)
  omega

lemma shiftLeft_one_eq (c : Nat) : c <<< 1 = 2 * c := by
  rw [Nat.shiftLeft_eq]; omega

lemma shiftLeft_two_eq (c : Nat) : c <<< 2 = 4 * c := by
  rw [Nat.shiftLeft_eq]; omega

/-- The predictor slots after a classification step: prev0 receives the old
prev1 and prev1 receives the processed byte, whatever event was chosen. -/
lemma processByte_prev (b : Nat) (s : EncSt) :
    (processByte b s).prev0 = s.prev1 ∧ (processByte b s).prev1 = b := by
  unfold processByte
  split
  · exact ⟨rfl, rfl⟩
  · split <;> exact ⟨rfl, rfl⟩

/-- Effect of a classification step on the bit count and the literal queue:
a repeat adds two bits, a predicted transform adds four bits, a literal
adds two bits and queues the byte. -/
lemma processByte_bits_lits (b : Nat) (s : EncSt) :
    ((processByte b s).bits = s.bits + 2 ∧
       (processByte b s).literals = s.literals) ∨
    ((processByte b s).bits = s.bits + 4 ∧
       (processByte b s).literals = s.literals) ∨
    ((processByte b s).bits = s.bits + 2 ∧
       (processByte b s).literals = s.literals ++ [b]) := by
  unfold processByte
  split
  · exact Or.inl ⟨rfl, rfl⟩
  · split
    · exact Or.inr (Or.inl ⟨rfl, rfl⟩)
    · exact Or.inr (Or.inr ⟨rfl, rfl⟩)

/-- Processing the implicit zero byte when prev1 already holds zero is a
repeat of prev1. -/
lemma processByte_zero_repeat (s : EncSt) (h : s.prev1 = 0) :
    processByte 0 s =
      ⟨s.bits + 2, ((s.control <<< 1 ||| 1) <<< 1) ||| 1,
       s.literals, s.prev1, 0⟩ := by
  unfold processByte
  rw [if_pos (Or.inr h.symm), if_pos h.symm]

/-- With fewer than eight pending bits the flush check does nothing. -/
lemma flush_lt (s : EncSt) (h : s.bits < 8) : flush s = some ([], s) := by
  unfold flush
  rw [if_neg (by omega)]

/-- Case analysis of a successful flush: either fewer than eight bits were
pending and nothing happened, or eight bits were removed, the literal queue
was cleared and the predictor slots were kept. -/
lemma flush_cases (s : EncSt) (out : List Nat) (s2 : EncSt)
    (h : flush s = some (out, s2)) :
    (s.bits < 8 ∧ s2 = s) ∨
    (8 ≤ s.bits ∧ s2.bits = s.bits - 8 ∧ s2.literals = [] ∧
     s2.prev0 = s.prev0 ∧ s2.prev1 = s.prev1) := by
  unfold flush at h
  split at h
  · split at h
    · exact absurd h (by simp)
    · refine Or.inr ⟨by omega, ?_⟩
      obtain ⟨h1, h2⟩ := Prod.mk.injEq .. ▸ (Option.some.injEq .. ▸ h)
      rw [← h2]
      exact ⟨rfl, rfl, rfl, rfl⟩
  · refine Or.inl ⟨by omega, ?_⟩
    obtain ⟨h1, h2⟩ := Prod.mk.injEq .. ▸ (Option.some.injEq .. ▸ h)
    exact h2.symm

/-- The loop-head invariant survives one full iteration body, that is one
classification step followed by the flush check. -/
lemma step_inv (b : Nat) (s : EncSt) (out : List Nat) (s2 : EncSt)
    (hinv : LoopInv s) (h : flush (processByte b s) = some (out, s2)) :
    LoopInv s2 ∧ s2.prev1 = b := by
  obtain ⟨hq, h6, he⟩ := hinv
  have hp := processByte_prev b s
  have hc := flush_cases _ _ _ h
  rcases processByte_bits_lits b s with ⟨hb, hl⟩ | ⟨hb, hl⟩ | ⟨hb, hl⟩ <;>
    rcases hc with ⟨hlt, rfl⟩ | ⟨hge, hb2, hl2, _, hp2⟩ <;>
    refine ⟨⟨?_, ?_, ?_⟩, ?_⟩ <;>
    first
    | (simp only [hb, hl, hb2, hl2, hp2, hp.2, List.length_append,
        List.length_nil, List.length_cons] at *; omega)
    | (simp only [hb, hl, hp.2, List.length_append,
        List.length_nil, List.length_cons] at *; omega)
    | exact hp.2

/-- Evenness and the bound of six on the pending bits survive one loop
body, and afterwards prev1 holds the processed byte. -/
lemma step_bits (b : Nat) (s : EncSt) (out : List Nat) (s2 : EncSt)
    (he : s.bits % 2 = 0) (h6 : s.bits ≤ 6)
    (h : flush (processByte b s) = some (out, s2)) :
    s2.bits % 2 = 0 ∧ s2.bits ≤ 6 ∧ s2.prev1 = b := by
  have hp := processByte_prev b s
  have hc := flush_cases _ _ _ h
  rcases processByte_bits_lits b s with ⟨hb, _⟩ | ⟨hb, _⟩ | ⟨hb, _⟩ <;>
    rcases hc with ⟨hlt, rfl⟩ | ⟨hge, hb2, _, _, hp2⟩ <;>
    refine ⟨?_, ?_, ?_⟩ <;> omega

/-- One-step unfolding of the loop on exhausted input. -/
lemma encodeLoop_nil (fuel : Nat) (s : EncSt) (acc : List Nat) :
    encodeLoop (fuel + 1) [] s acc =
      if s.bits = 0 then Result.ok (acc ++ [1])
      else
        match flush (processByte 0 s) with
        | none => Result.assertFail
        | some (out, s2) => encodeLoop fuel [] s2 (acc ++ out) := rfl

/-- One-step unfolding of the loop on remaining input. -/
lemma encodeLoop_cons (fuel b : Nat) (rest : List Nat) (s : EncSt)
    (acc : List Nat) :
    encodeLoop (fuel + 1) (b :: rest) s acc =
      match flush (processByte b s) with
      | none => Result.assertFail
      | some (out, s2) => encodeLoop fuel rest s2 (acc ++ out) := rfl

/-- Flushing at exactly eight pending bits: the whole control register is
emitted, checked against the reserved value, and the state keeps only the
predictor slots. -/
lemma flush_eight (s : EncSt) (h : s.bits = 8) :
    flush s =
      if s.control % 256 = 1 then none
      else some (s.control % 256 :: s.literals, ⟨0, 0, [], s.prev0, s.prev1⟩) := by
  unfold flush
  rw [if_pos (by omega)]
  rw [h]
  norm_num

/-- Draining the tail when prev1 already holds zero: every further implicit
zero byte is a repeat adding two bits, so within the measure 8 minus bits
the accumulator reaches a flush that leaves exactly zero bits, and the loop
exits, either normally or through the control-byte assert. -/
lemma tail_zero_prev : ∀ (n : Nat) (s : EncSt) (acc : List Nat),
    s.prev1 = 0 → s.bits % 2 = 0 → s.bits ≤ 6 → 8 - s.bits ≤ 2 * n →
    encodeLoop (n + 1) [] s acc ≠ Result.outOfFuel := by
  intro n
  induction n with
  | zero => intro s acc _ _ h6 hm; omega
  | succ n ih =>
    intro s acc hp he h6 hm
    rw [encodeLoop_nil]
    by_cases hb : s.bits = 0
    · rw [if_pos hb]; simp
    · rw [if_neg hb, processByte_zero_repeat s hp]
      by_cases h8 : s.bits + 2 < 8
      · rw [flush_lt ⟨s.bits + 2, _, s.literals, s.prev1, 0⟩ h8]
        exact ih ⟨s.bits + 2, _, s.literals, s.prev1, 0⟩ (acc ++ [])
          rfl (by show (s.bits + 2) % 2 = 0; omega)
          (by show s.bits + 2 ≤ 6; omega)
          (by show 8 - (s.bits + 2) ≤ 2 * n; omega)
      · rw [flush_eight ⟨s.bits + 2, _, s.literals, s.prev1, 0⟩
          (by show s.bits + 2 = 8; omega)]
        by_cases hc : (((s.control <<< 1 ||| 1) <<< 1) ||| 1) % 256 = 1
        · rw [if_pos hc]
          simp
        · rw [if_neg hc]
          simp only []
          rw [encodeLoop_nil, if_pos rfl]
          simp

/-- Draining the tail from any loop-head state with even bit count at most
six: the first implicit zero byte puts zero into prev1, after which the
previous lemma applies. -/
lemma tail_any (k : Nat) (s : EncSt) (acc : List Nat)
    (he : s.bits % 2 = 0) (h6 : s.bits ≤ 6) :
    encodeLoop (k + 6) [] s acc ≠ Result.outOfFuel := by
  rw [show k + 6 = (k + 5) + 1 by omega, encodeLoop_nil]
  by_cases hb : s.bits = 0
  · rw [if_pos hb]; simp
  · rw [if_neg hb]
    cases hf : flush (processByte 0 s) with
    | none => simp
    | some p =>
      obtain ⟨out, s2⟩ := p
      simp only []
      obtain ⟨he2, h62, hp2⟩ := step_bits 0 s out s2 he h6 hf
      rw [show k + 5 = (k + 4) + 1 by omega]
      exact tail_zero_prev (k + 4) s2 (acc ++ out) hp2 he2 h62 (by omega)

/-- The main loop never exhausts a fuel of the input length plus six or
more, starting from any state with even bit count at most six. -/
lemma loop_no_fuel_out : ∀ (input : List Nat) (k : Nat) (s : EncSt)
    (acc : List Nat), s.bits % 2 = 0 → s.bits ≤ 6 →
    encodeLoop (input.length + (k + 6)) input s acc ≠ Result.outOfFuel := by
  intro input
  induction input with
  | nil =>
    intro k s acc he h6
    simpa using tail_any k s acc he h6
  | cons b rest ih =>
    intro k s acc he h6
    have hlen : (b :: rest).length + (k + 6) =
        (rest.length + (k + 6)) + 1 := by simp only [List.length_cons]; omega
    rw [hlen, encodeLoop_cons]
    cases hf : flush (processByte b s) with
    | none => simp
    | some p =>
      obtain ⟨out, s2⟩ := p
      simp only []
      obtain ⟨he2, h62, _⟩ := step_bits b s out s2 he h6 hf
      exact ih k s2 (acc ++ out) he2 h62

/-- A normal exit of the loop always returns the accumulated stream plus
the terminator byte 1, so the produced stream ends in the byte 1. -/
lemma encodeLoop_ok_last : ∀ (f : Nat) (input : List Nat) (s : EncSt)
    (acc out : List Nat), encodeLoop f input s acc = Result.ok out →
    out.getLast? = some 1 := by
  intro f
  induction f with
  | zero => intro input s acc out h; exact absurd h (by simp [encodeLoop])
  | succ f ih =>
    intro input s acc out h
    cases input with
    | nil =>
      rw [encodeLoop_nil] at h
      by_cases hb : s.bits = 0
      · rw [if_pos hb] at h
        obtain rfl : acc ++ [1] = out := by simpa using h
        exact List.getLast?_concat acc
      · rw [if_neg hb] at h
        cases hf : flush (processByte 0 s) with
        | none => rw [hf] at h; exact absurd h (by simp)
        | some p =>
          obtain ⟨o, s2⟩ := p
          rw [hf] at h
          exact ih [] s2 (acc ++ o) out h
    | cons b rest =>
      rw [encodeLoop_cons] at h
      cases hf : flush (processByte b s) with
      | none => rw [hf] at h; exact absurd h (by simp)
      | some p =>
        obtain ⟨o, s2⟩ := p
        rw [hf] at h
        exact ih rest s2 (acc ++ o) out h

/-- Trimming a sequence of zero bytes leaves nothing. -/
lemma trimZeros_all_zero : ∀ l : List Nat, (∀ b ∈ l, b = 0) →
    trimZeros l = [] := by
  intro l
  induction l with
  | nil => intro _; rfl
  | cons b rest ih =>
    intro h
    have hb : b = 0 := h b (List.mem_cons_self b rest)
    have hr : trimZeros rest = [] := ih fun x hx => h x (List.mem_cons_of_mem b hx)
    subst hb
    simp [trimZeros, hr]

/-- Trimming a replicated zero sequence leaves nothing. -/
lemma trimZeros_replicate (n : Nat) : trimZeros (List.replicate n 0) = [] :=
  trimZeros_all_zero _ (by simp)

/-- A byte that misses both predictor slots and all four options is a
literal: two control bits, the byte appended to the queue. -/
lemma processByte_literal (b : Nat) (s : EncSt)
    (h : ¬(b = s.prev0 ∨ b = s.prev1))
    (hm : firstMatch b (opts (s.prev1 % 256)) = none) :
    processByte b s =
      ⟨s.bits + 2, s.control <<< 2, s.literals ++ [b], s.prev1, b⟩ := by
  unfold processByte
  rw [if_neg h, hm]

/-- A byte that misses both predictor slots but hits option i is a
predicted transform: four control bits, nothing queued. -/
lemma processByte_predicted (b : Nat) (s : EncSt) (i : Nat)
    (h : ¬(b = s.prev0 ∨ b = s.prev1))
    (hm : firstMatch b (opts (s.prev1 % 256)) = some i) :
    processByte b s =
      ⟨s.bits + 4, (((s.control <<< 2) ||| 1) <<< 2) ||| i,
       s.literals, s.prev1, b⟩ := by
  unfold processByte
  rw [if_neg h, hm]

/-- Claim C1: the claim states that no flushed control byte ever equals
0x01 for inputs of length at most 16384, equivalently that the assert on
line 129 of pb12.c never fires. The code violates its own assertion: on
the 4-byte input 0x02 0x08 0x20 0x60 the first three bytes are literals
(control bits 00 00 00) and the fourth matches the first predicted option
of 0x20, so the first flushed control byte is 0b00000001 = 0x01 and the
program aborts. -/
theorem C1_assert_fires : pb12Encode [2, 8, 32, 96] = Result.assertFail := by
  decide

/-- Claim C2, counterexample: encoding the single byte 0xFF does not yield
a control byte for one literal event followed by the literal 0xFF. The
actual output is 0x43 0x00 0x01, and the byte after the control byte is
0x00, not 0xFF: with prev1 still the unset sentinel, opts receives the
sentinel truncated to the byte 0xFF, so the input byte 0xFF is classified
as a predicted-transform match rather than a literal. -/
theorem C2_cex : pb12Encode [255] = Result.ok [67, 0, 1] ∧
    ([67, 0, 1] : List Nat)[1]? ≠ some 255 := by
  decide

/-- Claim C2, amended: encoding 0xFF gives the control byte 0x43
(predicted transform with index 0, literal, repeat of prev1), the literal
byte 0x00 and the terminator; and while prev1 is the unset sentinel,
every input byte outside the option set of 0xFF, namely every byte other
than 0xFF, 0xFE and 0x7F, is classified as a literal and never as a
predicted-transform match. -/
theorem C2_sentinel_options :
    pb12Encode [255] = Result.ok [67, 0, 1] ∧
    ∀ b : Nat, b < 256 → b ≠ 255 → b ≠ 254 → b ≠ 127 →
      (processByte b initSt).bits = 2 ∧
      (processByte b initSt).literals = [b] := by
  refine ⟨by decide, ?_⟩
  intro b hlt h1 h2 h3
  have hm : firstMatch b (opts (initSt.prev1 % 256)) = none := by
    have h255 : initSt.prev1 % 256 = 255 := by decide
    rw [h255]
    have hopts : opts 255 = [255, 254, 255, 127] := by decide
    rw [hopts]
    simp only [firstMatch,
      if_neg (show ¬(255 = b) from fun h => h1 h.symm),
      if_neg (show ¬(254 = b) from fun h => h2 h.symm),
      if_neg (show ¬(127 = b) from fun h => h3 h.symm)]
    rfl
  rw [processByte_literal b initSt (by show ¬(b = 4294967295 ∨ b = 4294967295); omega) hm]
  exact ⟨rfl, rfl⟩

/-- Claim C2, witness: the byte 0x05 processed at the initial sentinel
state is a literal. -/
theorem C2_sentinel_options_w :
    (processByte 5 initSt).bits = 2 ∧ (processByte 5 initSt).literals = [5] :=
  C2_sentinel_options.2 5 (by decide) (by decide) (by decide) (by decide)

/-- Claim C3, counterexample: a file of 16385 zero bytes exceeds the
16384-byte bound, yet the program does not abort: fread returns at most
16384 bytes, the size assert holds trivially, and the run succeeds on the
truncated buffer, emitting just the terminator. -/
theorem C3_cex_oversize_ok :
    (List.replicate 16385 (0 : Nat)).length > 16384 ∧
    pb12Program (List.replicate 16385 (0 : Nat)) = Result.ok [1] := by
  constructor
  · rw [List.length_replicate]
    omega
  · unfold pb12Program
    rw [List.take_replicate]
    rw [show min 16384 16385 = 16384 from by norm_num]
    unfold pb12Encode
    rw [if_neg (by rw [List.length_replicate]; omega)]
    rw [trimZeros_replicate]
    rfl

/-- Claim C3, amended: on input exceeding 16384 bytes the program neither
aborts nor fails; it behaves exactly as on the first 16384 bytes of the
file, and the size assert branch is never taken. -/
theorem C3_truncation (file : List Nat) :
    pb12Program file = pb12Program (file.take 16384) ∧
    pb12Program file =
      encodeLoop ((trimZeros (file.take 16384)).length + 8)
        (trimZeros (file.take 16384)) initSt [] := by
  have hlen : (file.take 16384).length ≤ 16384 := by
    rw [List.length_take]; omega
  constructor
  · unfold pb12Program
    rw [List.take_take]
    norm_num
  · unfold pb12Program pb12Encode
    rw [if_neg (by omega)]

/-- Claim C4, counterexample: on the input 0x02 0x04 0x01 the tail drain
does not bring the bit count to zero and write the terminator. The three
bytes are literals leaving six pending bits, and the first implicit zero
byte matches option 1 of prev1 = 0x01, so the flushed control byte is
0b00000001 and the pass aborts on the assert instead of terminating
normally. -/
theorem C4_cex_tail_abort : pb12Encode [2, 4, 1] = Result.assertFail := by
  decide

/-- Claim C4, amended: for every input of length at most 16384 the
encoding pass terminates after finitely many iterations. The fuel of
trimmed length plus 8 used by the embedding is never exhausted: the pass
either reaches zero pending bits and appends the terminator, or aborts on
the control-byte assert. -/
theorem C4_terminates (input : List Nat) (h : input.length ≤ 16384) :
    pb12Encode input ≠ Result.outOfFuel := by
  unfold pb12Encode
  rw [if_neg (by omega)]
  have hloop := loop_no_fuel_out (trimZeros input) 2 initSt []
    (by decide) (by decide)
  simpa using hloop

/-- Claim C4, witness: the pass on the input 0x03 terminates. -/
theorem C4_terminates_w : pb12Encode [3] ≠ Result.outOfFuel :=
  C4_terminates [3] (by decide)

/-- Claim C5, counterexample: the output for the input 0x01 is
0x17 0x01 0x01, so the byte immediately before the final terminator is
itself 0x01 (the queued literal 0x01), contradicting the claim that the
output ends with exactly one 0x01 whose predecessor is never 0x01. -/
theorem C5_cex_double_one :
    pb12Encode [1] = Result.ok [23, 1, 1] ∧
    ([23, 1, 1] : List Nat).dropLast.getLast? = some 1 := by
  decide

/-- Claim C5, amended: whenever the encoding pass completes normally, the
produced stream ends with the terminator byte 0x01; the byte before it
may itself be 0x01 when the last literal is 0x01, and on an assert abort
no terminator is produced at all. -/
theorem C5_ends_with_terminator (input out : List Nat)
    (h : pb12Encode input = Result.ok out) : out.getLast? = some 1 := by
  unfold pb12Encode at h
  split at h
  · exact absurd h (by simp)
  · exact encodeLoop_ok_last _ _ _ _ _ h

/-- Claim C5, witness: the empty input encodes to the single terminator
byte, which ends in 0x01. -/
theorem C5_ends_with_terminator_w : ([1] : List Nat).getLast? = some 1 :=
  C5_ends_with_terminator [] [1] (by decide)

/-- Claim C6: when the processed byte equals both predictor slots the
repeat-prev1 code with bits 1 1 is emitted (control grows to 4c + 3), when
it equals only prev0 the bits are 1 0 (4c + 2), and when it equals only
prev1 the bits are 1 1 (4c + 3); in all three cases exactly two bits are
added and no literal is queued. -/
theorem C6_repeat_priority (s : EncSt) (b : Nat) :
    (b = s.prev0 → b = s.prev1 →
      processByte b s =
        ⟨s.bits + 2, 4 * s.control + 3, s.literals, s.prev1, b⟩) ∧
    (b = s.prev0 → b ≠ s.prev1 →
      processByte b s =
        ⟨s.bits + 2, 4 * s.control + 2, s.literals, s.prev1, b⟩) ∧
    (b ≠ s.prev0 → b = s.prev1 →
      processByte b s =
        ⟨s.bits + 2, 4 * s.control + 3, s.literals, s.prev1, b⟩) := by
  have hc3 : ((s.control <<< 1 ||| 1) <<< 1) ||| 1 = 4 * s.control + 3 := by
    rw [shiftLeft_one_lor_one, shiftLeft_one_lor_one]
    omega
  have hc2 : (s.control <<< 1 ||| 1) <<< 1 = 4 * s.control + 2 := by
    rw [shiftLeft_one_lor_one, shiftLeft_one_eq]
    omega
  refine ⟨?_, ?_, ?_⟩ <;> intro h1 h2 <;> unfold processByte
  · rw [if_pos (Or.inl h1), if_pos h2, hc3]
  · rw [if_pos (Or.inl h1), if_neg h2, Nat.or_zero, hc2]
  · rw [if_pos (Or.inr h2), if_pos h2, hc3]

/-- Claim C6, witness: concrete instances of the three repeat cases. -/
theorem C6_repeat_priority_w :
    processByte 5 ⟨0, 0, [], 5, 5⟩ = ⟨2, 3, [], 5, 5⟩ ∧
    processByte 5 ⟨0, 0, [], 5, 7⟩ = ⟨2, 2, [], 7, 5⟩ ∧
    processByte 5 ⟨0, 0, [], 7, 5⟩ = ⟨2, 3, [], 5, 5⟩ :=
  ⟨(C6_repeat_priority ⟨0, 0, [], 5, 5⟩ 5).1 rfl rfl,
   (C6_repeat_priority ⟨0, 0, [], 5, 7⟩ 5).2.1 rfl (by decide),
   (C6_repeat_priority ⟨0, 0, [], 7, 5⟩ 5).2.2 (by decide) rfl⟩

/-- Claim C7: a byte that differs from both predictor slots and equals the
first predicted option prev1 OR ((prev1 shifted left by one) AND 0xFF) is
encoded as the 4-bit predicted-transform code with index 0 (control grows
to 16c + 4) and queues no literal. -/
theorem C7_predicted_first_option (s : EncSt) (b : Nat)
    (h0 : b ≠ s.prev0) (h1 : b ≠ s.prev1) (hp : s.prev1 < 256)
    (hb : b = s.prev1 ||| ((s.prev1 <<< 1) &&& 255)) :
    processByte b s =
      ⟨s.bits + 4, 16 * s.control + 4, s.literals, s.prev1, b⟩ := by
  have hm : firstMatch b (opts (s.prev1 % 256)) = some 0 := by
    rw [Nat.mod_eq_of_lt hp]
    simp only [opts, firstMatch]
    rw [if_pos hb.symm]
  have hctl : (((s.control <<< 2) ||| 1) <<< 2) ||| 0 = 16 * s.control + 4 := by
    rw [Nat.or_zero, shiftLeft_two_lor s.control 1 (by omega),
      shiftLeft_two_eq]
    omega
  rw [processByte_predicted b s 0 (by tauto) hm, hctl]

/-- Claim C7, witness: after the bytes 0x07 0x20, the byte 0x60 equals the
first option of 0x20 and is encoded as a predicted transform with index
zero. -/
theorem C7_predicted_first_option_w :
    processByte 96 ⟨0, 0, [], 7, 32⟩ = ⟨4, 4, [], 32, 96⟩ :=
  C7_predicted_first_option ⟨0, 0, [], 7, 32⟩ 96 (by decide) (by decide)
    (by decide) (by decide)

/-- Claim C8: an input consisting entirely of zero bytes, the empty input
included, trims to the empty sequence and encodes to exactly the single
terminator byte 0x01. -/
theorem C8_all_zero (input : List Nat) (hz : ∀ b ∈ input, b = 0)
    (hlen : input.length ≤ 16384) :
    trimZeros input = [] ∧ pb12Encode input = Result.ok [1] := by
  have ht := trimZeros_all_zero input hz
  refine ⟨ht, ?_⟩
  unfold pb12Encode
  rw [if_neg (by omega), ht]
  rfl

/-- Claim C8, witness: two zero bytes trim to nothing and encode to the
terminator alone. -/
theorem C8_all_zero_w :
    trimZeros [0, 0] = [] ∧ pb12Encode [0, 0] = Result.ok [1] :=
  C8_all_zero [0, 0] (by decide) (by decide)

/-- Claim C9: trimming is the identity on every already-trimmed sequence
of length at most 16384, that is on the empty sequence and on any sequence
whose last byte is nonzero. -/
theorem C9_trim_noop (l : List Nat) (hlen : l.length ≤ 16384)
    (hlast : l.getLast? ≠ some 0) : trimZeros l = l := by
  induction l with
  | nil => rfl
  | cons b rest ih =>
    cases rest with
    | nil =>
      have hb : b ≠ 0 := by simpa using hlast
      simp [trimZeros, hb]
    | cons c rest2 =>
      have h2 : (c :: rest2).getLast? ≠ some 0 := by
        rwa [List.getLast?_cons_cons] at hlast
      have ih2 : trimZeros (c :: rest2) = c :: rest2 :=
        ih (by simp only [List.length_cons] at hlen ⊢; omega) h2
      have hu : trimZeros (b :: c :: rest2) =
          match trimZeros (c :: rest2) with
          | [] => if b = 0 then [] else [b]
          | r => b :: r := rfl
      rw [hu, ih2]

/-- Claim C9, witness: the one-byte sequence 0x05 is left unchanged. -/
theorem C9_trim_noop_w : trimZeros [5] = [5] :=
  C9_trim_noop [5] (by decide) (by decide)

/-- Claim C10: the loop-head invariant (two bits per queued literal, at
most six pending bits, even bit count) holds initially, survives every
loop body, and bounds the literal queue during the body by four entries,
so every write into the 8-entry literals array is in bounds. -/
theorem C10_literal_queue_bound :
    LoopInv initSt ∧
    (∀ (b : Nat) (s : EncSt) (out : List Nat) (s2 : EncSt), LoopInv s →
      flush (processByte b s) = some (out, s2) → LoopInv s2) ∧
    (∀ (b : Nat) (s : EncSt), LoopInv s →
      (processByte b s).literals.length ≤ 4) := by
  refine ⟨by decide, ?_, ?_⟩
  · intro b s out s2 hinv hf
    exact (step_inv b s out s2 hinv hf).1
  · intro b s hinv
    obtain ⟨hq, h6, he⟩ := hinv
    rcases processByte_bits_lits b s with ⟨_, hl⟩ | ⟨_, hl⟩ | ⟨_, hl⟩ <;>
      simp only [hl, List.length_append, List.length_cons,
        List.length_nil] <;>
      omega

/-- Claim C10, witness: one literal step from the initial state keeps the
invariant, and the queue after a step from the initial state has at most
four entries. -/
theorem C10_literal_queue_bound_w :
    LoopInv ⟨2, 0, [5], 4294967295, 5⟩ ∧
    (processByte 7 initSt).literals.length ≤ 4 :=
  ⟨C10_literal_queue_bound.2.1 5 initSt [] ⟨2, 0, [5], 4294967295, 5⟩
     (by decide) (by decide),
   C10_literal_queue_bound.2.2 7 initSt (by decide)⟩
